import Mathlib

/-!
Verification development for the word-count utility in
`cpp-project/src/WordCount.cpp`.  The program tokenizes a text into
identifier-like words (optionally splitting at camel-case boundaries),
aggregates per-word statistics in a `std::map`, and sorts the entries by
descending occurrence count.  Every definition below is a shallow embedding of
the corresponding C++ function; `size_t` values are modelled as `Nat` (none of
the arithmetic can overflow for the quantities involved, and the one
subtraction, in `span`, is only ever evaluated under the invariant
`lowestOccurringLine_ ≤ highestOccurringLine_`, where `Nat` and `size_t`
subtraction agree), `double` as `ℚ` (the proportions appearing in the claims,
3/4 and 1/4, are exactly representable in binary floating point, so the
rational model agrees with the `double` computation there), and `std::string`
as Lean `String` (byte-wise `<` on ASCII strings coincides with `String.lt`).
-/

namespace WordCount

/-- Embeds `isDelimiter`: a character is a delimiter iff it is not alphanumeric
and not an underscore.  `isalnum` in the C locale accepts exactly the ASCII
letters and digits, which is what `Char.isAlphanum` tests. -/
def isDelimiter (c : Char) : Bool := !(c.isAlphanum || c == '_')

namespace Comparable

/-- Embeds `Comparable::operator>=`: `!(a < b)`. -/
def ge {α : Type} (lt : α → α → Bool) (a b : α) : Bool := !(lt a b)

/-- Embeds `Comparable::operator<=`: `!(b < a)`. -/
def le {α : Type} (lt : α → α → Bool) (a b : α) : Bool := !(lt b a)

/-- Embeds `Comparable::operator>`: `!(a <= b)`. -/
def gt {α : Type} (lt : α → α → Bool) (a b : α) : Bool := !(le lt a b)

/-- Embeds `Comparable::operator==`: `!(a < b) && !(b < a)`. -/
def eq {α : Type} (lt : α → α → Bool) (a b : α) : Bool := !(lt a b) && !(lt b a)

/-- Embeds `Comparable::operator!=`: `!(a == b)`. -/
def ne {α : Type} (lt : α → α → Bool) (a b : α) : Bool := !(eq lt a b)

end Comparable

/-- Embeds the state of a `WordStats` object, fields in declaration order. -/
structure WordStats where
  totalNumberOfLines_ : Nat
  nbOccurrences_ : Nat
  lowestOccurringLine_ : Nat
  highestOccurringLine_ : Nat
deriving DecidableEq

/-- Embeds the default-constructed `WordStats`: every field is
zero-initialized (`nbOccurrences_()` and the `= 0` member initializers). -/
def WordStats.init : WordStats := ⟨0, 0, 0, 0⟩

/-- Embeds `WordStats::nbOccurrences`. -/
def WordStats.nbOccurrences (s : WordStats) : Nat := s.nbOccurrences_

/-- Embeds `WordStats::setTotalNumberOfLines`. -/
def WordStats.setTotalNumberOfLines (s : WordStats) (totalNumberOfLines : Nat) : WordStats :=
  { s with totalNumberOfLines_ := totalNumberOfLines }

/-- Embeds `WordStats::addOneOccurrence`. -/
def WordStats.addOneOccurrence (s : WordStats) (lineNumber : Nat) : WordStats :=
  let nb := s.nbOccurrences_ + 1
  if nb = 1 then
    { s with nbOccurrences_ := nb, lowestOccurringLine_ := lineNumber,
             highestOccurringLine_ := lineNumber }
  else
    { s with nbOccurrences_ := nb,
             lowestOccurringLine_ := min s.lowestOccurringLine_ lineNumber,
             highestOccurringLine_ := max s.highestOccurringLine_ lineNumber }

/-- Embeds `WordStats::span`. -/
def WordStats.span (s : WordStats) : Nat :=
  if s.nbOccurrences_ = 0 then 0 else s.highestOccurringLine_ - s.lowestOccurringLine_ + 1

/-- Embeds `WordStats::proportion`, with `double` modelled as `ℚ`. -/
def WordStats.proportion (s : WordStats) : ℚ :=
  if s.totalNumberOfLines_ = 0 then 0
  else (s.span : ℚ) / (s.totalNumberOfLines_ : ℚ)

/-- Embeds `operator<(WordStats const&, WordStats const&)`: strict comparison
by occurrence count alone. -/
def WordStats.lt (a b : WordStats) : Bool := decide (a.nbOccurrences_ < b.nbOccurrences_)

/-- Embeds `WordData`: a word together with the 0-based line it occurs on. -/
structure WordData where
  word : String
  lineNumber : Nat
deriving DecidableEq

/-- Embeds `std::find_if(code.begin() + i, code.end(), p)` as an index: the
first index `j ≥ i` whose character satisfies `p`, or `code.length` when no
such index exists (callers always pass `i ≤ code.length`). -/
def findFrom (p : Char → Bool) (code : List Char) (i : Nat) : Nat :=
  i + (code.drop i).findIdx p

/-- Embeds `std::find_if_not(code.begin() + i, code.end(), p)`. -/
def findFromNot (p : Char → Bool) (code : List Char) (i : Nat) : Nat :=
  findFrom (fun c => !(p c)) code i

/-- Embeds `std::count(code.begin() + e, code.begin() + b, '\n')`: the number
of newline characters at indices in `[e, b)`. -/
def countNewlinesBetween (code : List Char) (e b : Nat) : Nat :=
  ((code.take b).drop e).count '\n'

/-- Embeds the `while (beginWord != end(code))` loop of `getWordDataFromCode`.
`e`, `b`, `line` are the `endWord`, `beginWord` and `line` variables of the
loop, as indices into `code`.  `fuel` bounds the number of iterations; since
`beginWord` strictly increases at every iteration, `code.length` fuel always
suffices, and the fuel-out branch is never taken from `getWordDataFromCode`. -/
def tokenLoop (isEndOfWord : Char → Bool) (code : List Char) :
    Nat → Nat → Nat → Nat → List WordData
  | 0, _, _, _ => []
  | fuel + 1, e, b, line =>
    if b < code.length then
      let line2 := line + countNewlinesBetween code e b
      let e2 := findFrom isEndOfWord code (b + 1)
      let w := String.mk ((code.drop b).take (e2 - b))
      let b2 := findFromNot isDelimiter code e2
      ⟨w, line2⟩ :: tokenLoop isEndOfWord code fuel e2 b2 line2
    else []

/-- Embeds `getWordDataFromCode(code, isEndOfWord)`:
`endWord = begin(code)`, `beginWord = find_if_not(begin, end, isDelimiter)`,
`line = 0`, then the scanning loop. -/
def getWordDataFromCode (isEndOfWord : Char → Bool) (code : List Char) : List WordData :=
  tokenLoop isEndOfWord code code.length 0 (findFromNot isDelimiter code 0) 0

/-- Embeds the end-of-word predicate of the `WordsInCamelCase` specialization:
`isDelimiter(c) || isupper(c)`. -/
def isEndOfWordCamel (c : Char) : Bool := isDelimiter c || c.isUpper

/-- Embeds `getWordDataFromCode<HowToDelimitWords::EntireWords>`. -/
def getWordDataEntireWords (code : List Char) : List WordData :=
  getWordDataFromCode isDelimiter code

/-- Embeds `getWordDataFromCode<HowToDelimitWords::WordsInCamelCase>`. -/
def getWordDataWordsInCamelCase (code : List Char) : List WordData :=
  getWordDataFromCode isEndOfWordCamel code

/-- Embeds lexicographic `<` on character lists: the order
`std::string::operator<` induces (byte-wise comparison; on ASCII text the
byte order and the character order coincide). -/
def charListLt : List Char → List Char → Bool
  | [], [] => false
  | [], _ :: _ => true
  | _ :: _, [] => false
  | a :: as, b :: bs => if a < b then true else if b < a then false else charListLt as bs

/-- Embeds `std::string::operator<`, the key order of the
`std::map<std::string, WordStats>`. -/
def strLt (a b : String) : Bool := charListLt a.toList b.toList

/-- Lexicographic `≤` on words, derived from `strLt` the way a strict total
order induces its reflexive closure: `a ≤ b` iff `¬(b < a)`. -/
def strLe (a b : String) : Bool := !(strLt b a)

/-- Embeds one `wordStats[word]` access followed by the two mutations the
aggregation loop performs on the entry.  `std::map` is modelled as an
association list kept in ascending key order: `operator[]`
default-constructs a `WordStats` when the key is absent. -/
def mapUpsert (m : List (String × WordStats)) (w : String) (f : WordStats → WordStats) :
    List (String × WordStats) :=
  match m with
  | [] => [(w, f WordStats.init)]
  | (k, v) :: rest =>
    if strLt w k then (w, f WordStats.init) :: (k, v) :: rest
    else if w = k then (k, f v) :: rest
    else (k, v) :: mapUpsert rest w f

/-- Embeds `wordStats(wordData, numberOfLines)`: fold the occurrence list into
the map, calling `setTotalNumberOfLines` then `addOneOccurrence` on the entry
for each occurrence. -/
def wordStats (wordData : List WordData) (numberOfLines : Nat) : List (String × WordStats) :=
  wordData.foldl
    (fun m oneWordData =>
      mapUpsert m oneWordData.word
        (fun s => (s.setTotalNumberOfLines numberOfLines).addOneOccurrence
          oneWordData.lineNumber))
    []

/-- Embeds `numberOfLines(code)`: newline count plus one. -/
def numberOfLines (code : List Char) : Nat := code.count '\n' + 1

/-- Embeds the comparator lambda of `getWordCount`:
`p1.second > p2.second`, where `operator>` comes from `Comparable`. -/
def sortComp (p q : String × WordStats) : Bool := Comparable.gt WordStats.lt p.2 q.2

/-- Postcondition of `std::sort(first, last, comp)`: the output is a
permutation of the input in which no adjacent pair satisfies
`comp next cur`.  The C++ standard leaves the relative order of
`comp`-equivalent elements unspecified, so the sort is a relation on lists,
not a function. -/
def IsSortResult (inp out : List (String × WordStats)) : Prop :=
  inp.Perm out ∧ List.Chain' (fun p q => sortComp q p = false) out

/-- Embeds `getWordCount(code)`: tokenize in camel-case mode, aggregate with
the total line count, copy the map into a vector, `std::sort` descending by
occurrence count.  Relates the input text to every output `std::sort` is
allowed to produce. -/
def getWordCountR (code : List Char) (out : List (String × WordStats)) : Prop :=
  IsSortResult (wordStats (getWordDataWordsInCamelCase code) (numberOfLines code)) out

/-- Ranked output sorted by occurrence count, descending (adjacent-pair
formulation). -/
def SortedDescByCount (out : List (String × WordStats)) : Prop :=
  List.Chain' (fun p q => q.2.nbOccurrences_ ≤ p.2.nbOccurrences_) out

/-- Tie-break condition asserted by the specification: adjacent entries with
equal occurrence count appear in lexicographically non-decreasing word
order. -/
def TieLexAdjacent (out : List (String × WordStats)) : Prop :=
  List.Chain' (fun p q => p.2.nbOccurrences_ = q.2.nbOccurrences_ → strLe p.1 q.1 = true) out

/-- Total occurrence count stored in a statistics map. -/
def sumCounts (m : List (String × WordStats)) : Nat :=
  (m.map fun p => p.2.nbOccurrences_).sum

/-- Invariant satisfied by every statistics value stored in the aggregation
map for a text with `n` lines: at least one occurrence was recorded, the line
bounds are ordered and below `n`, a single occurrence pins both bounds to the
same line, and the injected total line count is `n`. -/
def GoodStats (n : Nat) (s : WordStats) : Prop :=
  1 ≤ s.nbOccurrences_ ∧ s.lowestOccurringLine_ ≤ s.highestOccurringLine_ ∧
    s.highestOccurringLine_ < n ∧
    (s.nbOccurrences_ = 1 → s.lowestOccurringLine_ = s.highestOccurringLine_) ∧
    s.totalNumberOfLines_ = n

/-! Helper lemmas about `findFrom` and `countNewlinesBetween`. -/

theorem findFrom_ge (p : Char → Bool) (code : List Char) (i : Nat) :
    i ≤ findFrom p code i :=
  Nat.le_add_right i _

theorem findFrom_le_length (p : Char → Bool) (code : List Char) {i : Nat}
    (h : i ≤ code.length) : findFrom p code i ≤ code.length := by
  have h2 : (code.drop i).findIdx p ≤ (code.drop i).length := List.findIdx_le_length p
  rw [List.length_drop] at h2
  unfold findFrom
  omega

theorem findFrom_sat (p : Char → Bool) (code : List Char) (i : Nat)
    (h : findFrom p code i < code.length) :
    p (code.get ⟨findFrom p code i, h⟩) = true := by
  have hl : (code.drop i).findIdx p < (code.drop i).length := by
    rw [List.length_drop]
    unfold findFrom at h
    omega
  have h3 : p ((code.drop i).get ⟨(code.drop i).findIdx p, hl⟩) = true := by
    simp only [List.get_eq_getElem]
    exact List.findIdx_getElem
  simp only [List.get_eq_getElem, List.getElem_drop] at h3 ⊢
  exact h3

theorem findFrom_not_sat (p : Char → Bool) (code : List Char) {i k : Nat}
    (hik : i ≤ k) (hk : k < findFrom p code i) (hkl : k < code.length) :
    p (code.get ⟨k, hkl⟩) = false := by
  have h1 : k - i < (code.drop i).findIdx p := by
    unfold findFrom at hk
    omega
  have h2 := List.not_of_lt_findIdx h1
  simp only [List.getElem_drop] at h2
  have hik2 : i + (k - i) = k := by omega
  simp only [List.get_eq_getElem]
  simp only [hik2] at h2
  exact h2

theorem countNL_add (code : List Char) {e b : Nat} (h : e ≤ b) :
    countNewlinesBetween code 0 e + countNewlinesBetween code e b =
      countNewlinesBetween code 0 b := by
  unfold countNewlinesBetween
  rw [List.drop_zero, List.drop_zero]
  conv_rhs => rw [← List.take_append_drop e (code.take b)]
  rw [List.count_append, List.take_take, min_eq_left h]

theorem countNL_le (code : List Char) (b : Nat) :
    countNewlinesBetween code 0 b ≤ code.count '\n' := by
  unfold countNewlinesBetween
  rw [List.drop_zero]
  exact (List.take_sublist b code).count_le '\n'

theorem countNL_eq_zero (code : List Char) {e b : Nat}
    (h : ∀ k (hk : k < code.length), e ≤ k → k < b → code.get ⟨k, hk⟩ ≠ '\n') :
    countNewlinesBetween code e b = 0 := by
  unfold countNewlinesBetween
  rw [List.count_eq_zero]
  intro hmem
  obtain ⟨j, hj, hjv⟩ := List.mem_iff_getElem.mp hmem
  have hj2 : e + j < (code.take b).length := by
    rw [List.length_drop] at hj
    omega
  have hjb : e + j < b := by
    rw [List.length_take] at hj2
    omega
  have hjlen : e + j < code.length := by
    rw [List.length_take] at hj2
    omega
  simp only [List.getElem_drop, List.getElem_take] at hjv
  exact h (e + j) hjlen (Nat.le_add_right e j) hjb hjv

/-! Helper lemmas about the tokenizer loop. -/

theorem isDelimiter_ne_newline {c : Char} (h : isDelimiter c = false) : c ≠ '\n' := by
  intro hc
  rw [hc] at h
  exact absurd h (by decide)

theorem tokenLoop_stop (isEndOfWord : Char → Bool) (code : List Char)
    (fuel e b line : Nat) (h : code.length ≤ b) :
    tokenLoop isEndOfWord code fuel e b line = [] := by
  cases fuel with
  | zero => rfl
  | succ fuel =>
    rw [tokenLoop]
    rw [if_neg (by omega)]

theorem tokenLoop_succ_pos (isEndOfWord : Char → Bool) (code : List Char)
    (fuel e b line : Nat) (hb : b < code.length) :
    tokenLoop isEndOfWord code (fuel + 1) e b line =
      ⟨String.mk ((code.drop b).take (findFrom isEndOfWord code (b + 1) - b)),
        line + countNewlinesBetween code e b⟩ ::
        tokenLoop isEndOfWord code fuel (findFrom isEndOfWord code (b + 1))
          (findFromNot isDelimiter code (findFrom isEndOfWord code (b + 1)))
          (line + countNewlinesBetween code e b) := by
  rw [tokenLoop]
  simp only [if_pos hb]

theorem tokenLoop_chain (isEndOfWord : Char → Bool) (code : List Char) :
    ∀ fuel e b line, List.Chain' (· ≤ ·)
      (line :: (tokenLoop isEndOfWord code fuel e b line).map WordData.lineNumber) := by
  intro fuel
  induction fuel with
  | zero =>
    intro e b line
    simp [tokenLoop]
  | succ fuel ih =>
    intro e b line
    by_cases hb : b < code.length
    · rw [tokenLoop_succ_pos isEndOfWord code fuel e b line hb]
      simp only [List.map_cons]
      rw [List.chain'_cons]
      exact ⟨Nat.le_add_right _ _, ih _ _ _⟩
    · rw [tokenLoop_stop isEndOfWord code (fuel + 1) e b line (by omega)]
      simp

theorem tokenLoop_line_le (isEndOfWord : Char → Bool) (code : List Char)
    (hEOW : ∀ c, isDelimiter c = true → isEndOfWord c = true) :
    ∀ fuel e b line,
      line = countNewlinesBetween code 0 e →
      e ≤ b →
      (∀ hb : b < code.length, isDelimiter (code.get ⟨b, hb⟩) = false) →
      ∀ wd ∈ tokenLoop isEndOfWord code fuel e b line,
        wd.lineNumber ≤ code.count '\n' := by
  intro fuel
  induction fuel with
  | zero =>
    intro e b line _ _ _ wd hwd
    exact absurd hwd (by simp [tokenLoop])
  | succ fuel ih =>
    intro e b line hline heb hbdel wd hwd
    by_cases hb : b < code.length
    · rw [tokenLoop_succ_pos isEndOfWord code fuel e b line hb] at hwd
      have hline2 : line + countNewlinesBetween code e b =
          countNewlinesBetween code 0 b := by
        rw [hline]
        exact countNL_add code heb
      have he2 : b + 1 ≤ findFrom isEndOfWord code (b + 1) :=
        findFrom_ge isEndOfWord code (b + 1)
      rcases List.mem_cons.mp hwd with hhead | htail
      · rw [hhead]
        rw [hline2]
        exact countNL_le code b
      · refine ih (findFrom isEndOfWord code (b + 1)) _ _ ?_ ?_ ?_ wd htail
        · rw [hline2]
          have hbe2 : b ≤ findFrom isEndOfWord code (b + 1) := by omega
          rw [← countNL_add code hbe2]
          have hzero : countNewlinesBetween code b
              (findFrom isEndOfWord code (b + 1)) = 0 := by
            refine countNL_eq_zero code ?_
            intro k hk hbk hke2
            rcases Nat.eq_or_lt_of_le hbk with hkb | hkb
            · subst hkb
              exact isDelimiter_ne_newline (hbdel hb)
            · have hEOWk : isEndOfWord (code.get ⟨k, hk⟩) = false :=
                findFrom_not_sat isEndOfWord code (by omega) hke2 hk
              have hdk : isDelimiter (code.get ⟨k, hk⟩) = false := by
                cases hdel : isDelimiter (code.get ⟨k, hk⟩) with
                | false => rfl
                | true => rw [hEOW _ hdel] at hEOWk; exact absurd hEOWk (by simp)
              exact isDelimiter_ne_newline hdk
          omega
        · exact findFrom_ge _ code _
        · intro hb2
          have hsat := findFrom_sat (fun c => !(isDelimiter c)) code
            (findFrom isEndOfWord code (b + 1)) hb2
          simp only [Bool.not_eq_eq_eq_not, Bool.not_true] at hsat
          exact hsat
    · rw [tokenLoop_stop isEndOfWord code (fuel + 1) e b line (by omega)] at hwd
      exact absurd hwd (by simp)

theorem findFromNot_spec (p : Char → Bool) (code : List Char) (i : Nat)
    (h : findFromNot p code i < code.length) :
    p (code.get ⟨findFromNot p code i, h⟩) = false := by
  have hsat := findFrom_sat (fun c => !(p c)) code i h
  simp only [Bool.not_eq_eq_eq_not, Bool.not_true] at hsat
  exact hsat

theorem getWordData_line_lt (isEndOfWord : Char → Bool) (code : List Char)
    (hEOW : ∀ c, isDelimiter c = true → isEndOfWord c = true) :
    ∀ wd ∈ getWordDataFromCode isEndOfWord code, wd.lineNumber < numberOfLines code := by
  intro wd hwd
  have h := tokenLoop_line_le isEndOfWord code hEOW code.length 0
    (findFromNot isDelimiter code 0) 0 rfl (Nat.zero_le _)
    (fun hb => findFromNot_spec isDelimiter code 0 hb) wd hwd
  unfold numberOfLines
  omega

/-! Helper lemmas about the statistics map. -/

theorem addOneOccurrence_nb (s : WordStats) (line : Nat) :
    (s.addOneOccurrence line).nbOccurrences_ = s.nbOccurrences_ + 1 := by
  simp only [WordStats.addOneOccurrence]
  split <;> rfl

theorem bump_nb (n line : Nat) (s : WordStats) :
    ((s.setTotalNumberOfLines n).addOneOccurrence line).nbOccurrences_ =
      s.nbOccurrences_ + 1 :=
  addOneOccurrence_nb _ line

theorem mapUpsert_sum (w : String) (f : WordStats → WordStats)
    (hf : ∀ s, (f s).nbOccurrences_ = s.nbOccurrences_ + 1) :
    ∀ m, sumCounts (mapUpsert m w f) = sumCounts m + 1 := by
  intro m
  induction m with
  | nil =>
    simp only [mapUpsert, sumCounts, List.map_cons, List.map_nil, List.sum_cons,
      List.sum_nil, hf]
    rfl
  | cons kv rest ih =>
    obtain ⟨k, v⟩ := kv
    simp only [mapUpsert]
    by_cases h1 : strLt w k
    · rw [if_pos h1]
      simp only [sumCounts, List.map_cons, List.sum_cons, hf]
      have hinit : WordStats.init.nbOccurrences_ = 0 := rfl
      omega
    · rw [if_neg h1]
      by_cases h2 : w = k
      · rw [if_pos h2]
        simp only [sumCounts, List.map_cons, List.sum_cons, hf]
        omega
      · rw [if_neg h2]
        simp only [sumCounts, List.map_cons, List.sum_cons] at ih ⊢
        omega

theorem wordStats_sum_aux (n : Nat) :
    ∀ (wd : List WordData) (m : List (String × WordStats)),
      sumCounts (List.foldl (fun m o => mapUpsert m o.word (fun s =>
          (s.setTotalNumberOfLines n).addOneOccurrence o.lineNumber)) m wd) =
        sumCounts m + wd.length := by
  intro wd
  induction wd with
  | nil =>
    intro m
    simp
  | cons o rest ih =>
    intro m
    simp only [List.foldl_cons, List.length_cons]
    rw [ih, mapUpsert_sum _ _ (bump_nb n o.lineNumber)]
    omega

theorem wordStats_sum (wd : List WordData) (n : Nat) :
    sumCounts (wordStats wd n) = wd.length := by
  unfold wordStats
  rw [wordStats_sum_aux]
  simp [sumCounts]

theorem mapUpsert_forall (P : WordStats → Prop) (w : String) (f : WordStats → WordStats)
    (hinit : P (f WordStats.init)) (hstep : ∀ s, P s → P (f s)) :
    ∀ m, (∀ p ∈ m, P p.2) → ∀ p ∈ mapUpsert m w f, P p.2 := by
  intro m
  induction m with
  | nil =>
    intro _ p hp
    simp only [mapUpsert, List.mem_singleton] at hp
    rw [hp]
    exact hinit
  | cons kv rest ih =>
    obtain ⟨k, v⟩ := kv
    intro hm p hp
    simp only [mapUpsert] at hp
    by_cases h1 : strLt w k
    · rw [if_pos h1] at hp
      rcases List.mem_cons.mp hp with h | h
      · rw [h]
        exact hinit
      · exact hm p h
    · rw [if_neg h1] at hp
      by_cases h2 : w = k
      · rw [if_pos h2] at hp
        rcases List.mem_cons.mp hp with h | h
        · rw [h]
          exact hstep v (hm (k, v) (List.mem_cons_self _ _))
        · exact hm p (List.mem_cons_of_mem _ h)
      · rw [if_neg h2] at hp
        rcases List.mem_cons.mp hp with h | h
        · rw [h]
          exact hm (k, v) (List.mem_cons_self _ _)
        · exact ih (fun q hq => hm q (List.mem_cons_of_mem _ hq)) p h

theorem GoodStats_init (n line : Nat) (hline : line < n) :
    GoodStats n ((WordStats.init.setTotalNumberOfLines n).addOneOccurrence line) := by
  simp only [WordStats.init, WordStats.setTotalNumberOfLines, WordStats.addOneOccurrence,
    GoodStats]
  norm_num
  exact hline

theorem GoodStats_step (n line : Nat) (s : WordStats) (hline : line < n)
    (hs : GoodStats n s) :
    GoodStats n ((s.setTotalNumberOfLines n).addOneOccurrence line) := by
  obtain ⟨h1, h2, h3, h4, h5⟩ := hs
  simp only [WordStats.setTotalNumberOfLines, WordStats.addOneOccurrence, GoodStats]
  rw [if_neg (by omega)]
  refine ⟨?_, ?_, ?_, ?_, ?_⟩
  · show 1 ≤ s.nbOccurrences_ + 1
    omega
  · show min s.lowestOccurringLine_ line ≤ max s.highestOccurringLine_ line
    exact le_trans (min_le_left _ _) (le_trans h2 (le_max_left _ _))
  · show max s.highestOccurringLine_ line < n
    exact max_lt h3 hline
  · show s.nbOccurrences_ + 1 = 1 →
      min s.lowestOccurringLine_ line = max s.highestOccurringLine_ line
    intro hone
    omega
  · rfl

theorem wordStats_forall (n : Nat) :
    ∀ (wd : List WordData), (∀ o ∈ wd, o.lineNumber < n) →
      ∀ (m : List (String × WordStats)), (∀ p ∈ m, GoodStats n p.2) →
        ∀ p ∈ List.foldl (fun m o => mapUpsert m o.word (fun s =>
            (s.setTotalNumberOfLines n).addOneOccurrence o.lineNumber)) m wd,
          GoodStats n p.2 := by
  intro wd
  induction wd with
  | nil =>
    intro _ m hm p hp
    exact hm p hp
  | cons o rest ih =>
    intro hwd m hm
    simp only [List.foldl_cons]
    refine ih (fun q hq => hwd q (List.mem_cons_of_mem _ hq)) _ ?_
    exact mapUpsert_forall _ _ _
      (GoodStats_init n o.lineNumber (hwd o (List.mem_cons_self _ _)))
      (fun s hPs => GoodStats_step n o.lineNumber s (hwd o (List.mem_cons_self _ _)) hPs)
      m hm

theorem wordStats_good (wd : List WordData) (n : Nat)
    (hwd : ∀ o ∈ wd, o.lineNumber < n) :
    ∀ p ∈ wordStats wd n, GoodStats n p.2 :=
  wordStats_forall n wd hwd [] (by simp)

/-! Helper lemmas for the tokenizer on delimiter-free text, for permutations
of two-element lists, and for the sort comparator. -/

theorem getWordDataFromCode_single (isEndOfWord : Char → Bool) (code : List Char)
    (hne : code ≠ [])
    (hdelim : ∀ c ∈ code, isDelimiter c = false)
    (htail : ∀ c ∈ code.tail, isEndOfWord c = false) :
    getWordDataFromCode isEndOfWord code = [⟨String.mk code, 0⟩] := by
  obtain ⟨c, cs, rfl⟩ := List.exists_cons_of_ne_nil hne
  have htail2 : ∀ x ∈ cs, isEndOfWord x = false := htail
  have hb0 : findFromNot isDelimiter (c :: cs) 0 = 0 := by
    have hc : isDelimiter c = false := hdelim c (List.mem_cons_self _ _)
    unfold findFromNot findFrom
    rw [List.drop_zero]
    simp [List.findIdx_cons, hc]
  have he2 : findFrom isEndOfWord (c :: cs) 1 = (c :: cs).length := by
    unfold findFrom
    have hdrop : (c :: cs).drop 1 = cs := rfl
    rw [hdrop, List.findIdx_eq_length_of_false htail2, List.length_cons]
    omega
  unfold getWordDataFromCode
  rw [hb0, List.length_cons]
  rw [tokenLoop_succ_pos _ _ cs.length 0 0 0 (by simp)]
  have hz : (0 : Nat) + 1 = 1 := rfl
  rw [hz, he2]
  rw [List.drop_zero, Nat.sub_zero, List.take_length]
  have hcount : countNewlinesBetween (c :: cs) 0 0 = 0 := rfl
  rw [hcount]
  have hstop : (c :: cs).length ≤ findFromNot isDelimiter (c :: cs) (c :: cs).length :=
    findFrom_ge _ _ _
  rw [tokenLoop_stop _ _ cs.length _ _ _ hstop]

theorem perm_pair_cases {α : Type} {a b : α} {l : List α} (h : List.Perm [a, b] l) :
    l = [a, b] ∨ l = [b, a] := by
  cases l with
  | nil =>
    have hlen := h.length_eq
    simp at hlen
  | cons x t =>
    cases t with
    | nil =>
      have hlen := h.length_eq
      simp at hlen
    | cons y t2 =>
      cases t2 with
      | cons z t3 =>
        have hlen := h.length_eq
        simp at hlen
      | nil =>
        have hx : x ∈ [a, b] := h.mem_iff.mpr (List.mem_cons_self x [y])
        rcases List.mem_cons.mp hx with hxa | hxb
        · subst hxa
          left
          have hy := List.perm_singleton.mp h.cons_inv
          rw [hy]
        · have hxb2 : x = b := by
            simpa using hxb
          subst hxb2
          right
          have hswap : List.Perm [x, a] [a, x] := List.Perm.swap a x []
          have hy := List.perm_singleton.mp (hswap.trans h).cons_inv
          rw [hy]

theorem sortComp_false_iff (p q : String × WordStats) :
    sortComp q p = false ↔ q.2.nbOccurrences_ ≤ p.2.nbOccurrences_ := by
  simp [sortComp, Comparable.gt, Comparable.le, WordStats.lt, Nat.not_lt]

/-! Theorems settling the specification claims. -/

/-- Claim C7: `numberOfLines` of every text equals the count of newline
characters in the text plus one; in particular it is 1 on `""`, 2 on
`"a\nb"` and 3 on `"a\nb\n"`. -/
theorem C7_numberOfLines :
    (∀ code : List Char, numberOfLines code = code.count '\n' + 1) ∧
      numberOfLines "".toList = 1 ∧ numberOfLines "a\nb".toList = 2 ∧
      numberOfLines "a\nb\n".toList = 3 :=
  ⟨fun _ => rfl, rfl, rfl, rfl⟩

/-- Claim C4: tokenizing `"fooBar baz_qux"` in WordsInCamelCase mode yields
exactly `[("foo",0), ("Bar",0), ("baz_qux",0)]`, and in EntireWords mode
exactly `[("fooBar",0), ("baz_qux",0)]`. -/
theorem C4_tokenize_example :
    getWordDataWordsInCamelCase "fooBar baz_qux".toList =
        [⟨"foo", 0⟩, ⟨"Bar", 0⟩, ⟨"baz_qux", 0⟩] ∧
      getWordDataEntireWords "fooBar baz_qux".toList =
        [⟨"fooBar", 0⟩, ⟨"baz_qux", 0⟩] :=
  ⟨rfl, rfl⟩

/-- Claim C9: the operators the `Comparable` base derives from the single
`operator<` on `WordStats` realize the preorder induced by occurrence count
alone: `a > b` iff `b < a`, `a == b` iff neither `a < b` nor `b < a`, and any
two stats with equal `nbOccurrences_` compare equal, whatever their other
fields. -/
theorem C9_comparable_ops :
    (∀ a b : WordStats, Comparable.gt WordStats.lt a b = WordStats.lt b a) ∧
      (∀ a b : WordStats,
        Comparable.eq WordStats.lt a b = (!WordStats.lt a b && !WordStats.lt b a)) ∧
      ∀ a b : WordStats, a.nbOccurrences_ = b.nbOccurrences_ →
        Comparable.eq WordStats.lt a b = true := by
  refine ⟨?_, ?_, ?_⟩
  · intro a b
    simp [Comparable.gt, Comparable.le]
  · intro a b
    rfl
  · intro a b h
    simp [Comparable.eq, WordStats.lt, h]

/-- Claim C9 witness: two concrete stats with equal counts but different
spans, line bounds and totals compare equal. -/
theorem C9_comparable_ops_witness :
    (WordStats.mk 5 2 0 3).nbOccurrences_ = (WordStats.mk 7 2 1 1).nbOccurrences_ ∧
      Comparable.eq WordStats.lt (WordStats.mk 5 2 0 3) (WordStats.mk 7 2 1 1) = true :=
  ⟨rfl, C9_comparable_ops.2.2 (WordStats.mk 5 2 0 3) (WordStats.mk 7 2 1 1) rfl⟩

/-- Claim C8: the empty text is processed without error: both tokenizers
return no occurrence, aggregating no occurrences yields the empty map, and
the only ranked output the sort can produce is the empty sequence. -/
theorem C8_empty_input :
    getWordDataWordsInCamelCase "".toList = [] ∧
      getWordDataEntireWords "".toList = [] ∧
      (∀ n, wordStats [] n = []) ∧
      ∀ out, getWordCountR "".toList out → out = [] := by
  refine ⟨rfl, rfl, fun _ => rfl, ?_⟩
  intro out h
  exact List.perm_nil.mp h.1.symm

/-- Claim C8 witness: the empty list is a sort output for the empty text, and
the theorem maps it to the empty result. -/
theorem C8_empty_input_witness :
    getWordCountR "".toList [] ∧ ([] : List (String × WordStats)) = [] := by
  have hR : getWordCountR "".toList [] := ⟨List.Perm.refl _, List.chain'_nil⟩
  exact ⟨hR, C8_empty_input.2.2.2 [] hR⟩

/-- Claim C1 counterexample: on the text `"b a"` both words occur once, so
the output listing `"b"` before `"a"` is a permutation of the aggregated map
that is sorted descending by count — a result `std::sort` is allowed to
return (the C++ standard leaves the order of equivalent elements
unspecified, and `getWordCount` uses `std::sort`, not `std::stable_sort`) —
yet it violates the lexicographic adjacent tie-break the claim asserts. -/
theorem C1_counterexample :
    getWordCountR "b a".toList [("b", ⟨1, 1, 0, 0⟩), ("a", ⟨1, 1, 0, 0⟩)] ∧
      ¬ TieLexAdjacent [("b", ⟨1, 1, 0, 0⟩), ("a", ⟨1, 1, 0, 0⟩)] := by
  constructor
  · constructor
    · exact List.Perm.swap _ _ _
    · rw [List.chain'_cons]
      exact ⟨rfl, List.chain'_singleton _⟩
  · unfold TieLexAdjacent
    rw [List.chain'_cons]
    intro hcontra
    exact absurd (hcontra.1 rfl) (by decide)

/-- Claim C1 (amended): every ranked output the sort may produce is sorted by
occurrence count descending; the adjacent lexicographic tie-break of the
original claim is not guaranteed by `std::sort` (see the counterexample). -/
theorem C1_sorted_desc (code : List Char) (out : List (String × WordStats))
    (h : getWordCountR code out) : SortedDescByCount out :=
  List.Chain'.imp (fun a b hab => (sortComp_false_iff a b).mp hab) h.2

/-- Claim C1 witness: a concrete text, a valid sort output for it, and the
descending-count conclusion. -/
theorem C1_sorted_desc_witness :
    getWordCountR "x y x".toList [("x", ⟨1, 2, 0, 0⟩), ("y", ⟨1, 1, 0, 0⟩)] ∧
      SortedDescByCount [("x", ⟨1, 2, 0, 0⟩), ("y", ⟨1, 1, 0, 0⟩)] := by
  have hR : getWordCountR "x y x".toList [("x", ⟨1, 2, 0, 0⟩), ("y", ⟨1, 1, 0, 0⟩)] := by
    constructor
    · exact List.Perm.refl _
    · rw [List.chain'_cons]
      exact ⟨rfl, List.chain'_singleton _⟩
  exact ⟨hR, C1_sorted_desc _ _ hR⟩

/-- Claim C2 counterexample: `"aB"` is non-empty and contains no delimiter
character, yet WordsInCamelCase tokenization produces two words, not one
(it splits before the internal upper-case letter). -/
theorem C2_counterexample :
    (∀ c ∈ "aB".toList, isDelimiter c = false) ∧
      getWordDataWordsInCamelCase "aB".toList = [⟨"a", 0⟩, ⟨"B", 0⟩] :=
  ⟨by decide, rfl⟩

/-- Claim C2 (amended): on a non-empty text with no delimiter character,
EntireWords tokenization produces exactly one word — the whole text — at
line 0; WordsInCamelCase tokenization does so as well provided additionally
no character after the first is upper-case. -/
theorem C2_no_delimiter_single (code : List Char) (hne : code ≠ [])
    (hdelim : ∀ c ∈ code, isDelimiter c = false) :
    getWordDataEntireWords code = [⟨String.mk code, 0⟩] ∧
      ((∀ c ∈ code.tail, c.isUpper = false) →
        getWordDataWordsInCamelCase code = [⟨String.mk code, 0⟩]) := by
  constructor
  · exact getWordDataFromCode_single _ _ hne hdelim
      (fun c hc => hdelim c (List.mem_of_mem_tail hc))
  · intro hupper
    refine getWordDataFromCode_single _ _ hne hdelim ?_
    intro c hc
    unfold isEndOfWordCamel
    rw [hdelim c (List.mem_of_mem_tail hc), hupper c hc]
    rfl

/-- Claim C2 witness: on `"ab"` both modes produce the single word `"ab"` at
line 0. -/
theorem C2_no_delimiter_single_witness :
    ("ab".toList ≠ [] ∧ ∀ c ∈ "ab".toList, isDelimiter c = false) ∧
      getWordDataEntireWords "ab".toList = [⟨"ab", 0⟩] ∧
      getWordDataWordsInCamelCase "ab".toList = [⟨"ab", 0⟩] := by
  have h1 : "ab".toList ≠ [] := by decide
  have h2 : ∀ c ∈ "ab".toList, isDelimiter c = false := by decide
  have h3 := C2_no_delimiter_single "ab".toList h1 h2
  exact ⟨⟨h1, h2⟩, h3.1, h3.2 (by decide)⟩

/-- Claim C5: for every text and every output the sort may produce, the sum
of the occurrence counts over the ranked entries equals the number of
occurrences the camel-case tokenizer produced. -/
theorem C5_counts_sum (code : List Char) (out : List (String × WordStats))
    (h : getWordCountR code out) :
    sumCounts out = (getWordDataWordsInCamelCase code).length := by
  have hsum : sumCounts
      (wordStats (getWordDataWordsInCamelCase code) (numberOfLines code)) =
      sumCounts out := (h.1.map _).sum_eq
  rw [← hsum, wordStats_sum]

/-- Claim C5 witness: on `"b a"` with a concrete sort output, both sides
evaluate to 2. -/
theorem C5_counts_sum_witness :
    getWordCountR "b a".toList [("a", ⟨1, 1, 0, 0⟩), ("b", ⟨1, 1, 0, 0⟩)] ∧
      sumCounts [("a", ⟨1, 1, 0, 0⟩), ("b", ⟨1, 1, 0, 0⟩)] =
        (getWordDataWordsInCamelCase "b a".toList).length := by
  have hR : getWordCountR "b a".toList [("a", ⟨1, 1, 0, 0⟩), ("b", ⟨1, 1, 0, 0⟩)] := by
    constructor
    · exact List.Perm.refl _
    · rw [List.chain'_cons]
      exact ⟨rfl, List.chain'_singleton _⟩
  exact ⟨hR, C5_counts_sum _ _ hR⟩

/-- Claim C3: the pipeline on `"cat\ndog\ncat\n"` (4 lines): `cat` has
count 2, lowest line 0, highest line 2, span 3, proportion 3/4; `dog` has
count 1, span 1, proportion 1/4; and every output the sort may produce is
exactly `[cat, dog]`. -/
theorem C3_cat_dog :
    numberOfLines "cat\ndog\ncat\n".toList = 4 ∧
      wordStats (getWordDataWordsInCamelCase "cat\ndog\ncat\n".toList) 4 =
        [("cat", ⟨4, 2, 0, 2⟩), ("dog", ⟨4, 1, 1, 1⟩)] ∧
      ((WordStats.mk 4 2 0 2).nbOccurrences_ = 2 ∧
        (WordStats.mk 4 2 0 2).lowestOccurringLine_ = 0 ∧
        (WordStats.mk 4 2 0 2).highestOccurringLine_ = 2 ∧
        (WordStats.mk 4 2 0 2).span = 3 ∧
        (WordStats.mk 4 2 0 2).proportion = 3 / 4 ∧
        (WordStats.mk 4 1 1 1).nbOccurrences_ = 1 ∧
        (WordStats.mk 4 1 1 1).span = 1 ∧
        (WordStats.mk 4 1 1 1).proportion = 1 / 4) ∧
      ∀ out, getWordCountR "cat\ndog\ncat\n".toList out →
        out = [("cat", ⟨4, 2, 0, 2⟩), ("dog", ⟨4, 1, 1, 1⟩)] := by
  refine ⟨rfl, rfl, ⟨rfl, rfl, rfl, rfl, ?_, rfl, rfl, ?_⟩, ?_⟩
  · norm_num [WordStats.proportion, WordStats.span]
  · norm_num [WordStats.proportion, WordStats.span]
  · intro out h
    obtain ⟨hperm, hchain⟩ := h
    have hperm2 : List.Perm [("cat", (⟨4, 2, 0, 2⟩ : WordStats)), ("dog", ⟨4, 1, 1, 1⟩)]
        out := hperm
    rcases perm_pair_cases hperm2 with hout | hout
    · exact hout
    · exfalso
      rw [hout, List.chain'_cons] at hchain
      exact absurd hchain.1 (by decide)

/-- Claim C3 witness: the list `[cat, dog]` is a valid sort output for the
text, and the theorem identifies every output with it. -/
theorem C3_cat_dog_witness :
    getWordCountR "cat\ndog\ncat\n".toList
        [("cat", ⟨4, 2, 0, 2⟩), ("dog", ⟨4, 1, 1, 1⟩)] ∧
      [(("cat" : String), (⟨4, 2, 0, 2⟩ : WordStats)), ("dog", ⟨4, 1, 1, 1⟩)] =
        [("cat", ⟨4, 2, 0, 2⟩), ("dog", ⟨4, 1, 1, 1⟩)] := by
  have hR : getWordCountR "cat\ndog\ncat\n".toList
      [("cat", ⟨4, 2, 0, 2⟩), ("dog", ⟨4, 1, 1, 1⟩)] := by
    constructor
    · exact List.Perm.refl _
    · rw [List.chain'_cons]
      exact ⟨rfl, List.chain'_singleton _⟩
  exact ⟨hR, C3_cat_dog.2.2.2 _ hR⟩

/-- Claim C6: in every ranked output, every entry has `1 ≤ span` and
`span ≤ numberOfLines`, `span = 1` whenever its count is 1, and the
aggregator invariant holds: ordered line bounds whenever the count is
positive, and both bounds (and the count) zero in the default-constructed
state. -/
theorem C6_span_invariants :
    (∀ (code : List Char) (out : List (String × WordStats)), getWordCountR code out →
      ∀ p ∈ out, 1 ≤ p.2.span ∧ p.2.span ≤ numberOfLines code ∧
        (p.2.nbOccurrences_ = 1 → p.2.span = 1) ∧
        (0 < p.2.nbOccurrences_ →
          p.2.lowestOccurringLine_ ≤ p.2.highestOccurringLine_)) ∧
      WordStats.init.nbOccurrences_ = 0 ∧ WordStats.init.lowestOccurringLine_ = 0 ∧
      WordStats.init.highestOccurringLine_ = 0 := by
  refine ⟨?_, rfl, rfl, rfl⟩
  intro code out h p hp
  have hp2 : p ∈ wordStats (getWordDataWordsInCamelCase code) (numberOfLines code) :=
    h.1.mem_iff.mpr hp
  have hEOW : ∀ c, isDelimiter c = true → isEndOfWordCamel c = true := by
    intro c hc
    unfold isEndOfWordCamel
    rw [hc]
    rfl
  have hgood := wordStats_good _ _ (getWordData_line_lt isEndOfWordCamel code hEOW) p hp2
  obtain ⟨h1, h2, h3, h4, h5⟩ := hgood
  have hspan : p.2.span = p.2.highestOccurringLine_ - p.2.lowestOccurringLine_ + 1 := by
    unfold WordStats.span
    rw [if_neg (by omega)]
  refine ⟨by omega, by omega, ?_, fun _ => h2⟩
  intro hone
  have hlh := h4 hone
  omega

/-- Claim C6 witness: the invariants instantiated on a concrete text and a
concrete sort output. -/
theorem C6_span_invariants_witness :
    (getWordCountR "cat\ndog\ncat\n".toList
        [("cat", ⟨4, 2, 0, 2⟩), ("dog", ⟨4, 1, 1, 1⟩)] ∧
      ("cat", (⟨4, 2, 0, 2⟩ : WordStats)) ∈
        [(("cat" : String), (⟨4, 2, 0, 2⟩ : WordStats)), ("dog", ⟨4, 1, 1, 1⟩)]) ∧
      1 ≤ (WordStats.mk 4 2 0 2).span ∧
      (WordStats.mk 4 2 0 2).span ≤ numberOfLines "cat\ndog\ncat\n".toList ∧
      ((WordStats.mk 4 2 0 2).nbOccurrences_ = 1 → (WordStats.mk 4 2 0 2).span = 1) ∧
      (0 < (WordStats.mk 4 2 0 2).nbOccurrences_ →
        (WordStats.mk 4 2 0 2).lowestOccurringLine_ ≤
          (WordStats.mk 4 2 0 2).highestOccurringLine_) := by
  have hR : getWordCountR "cat\ndog\ncat\n".toList
      [("cat", ⟨4, 2, 0, 2⟩), ("dog", ⟨4, 1, 1, 1⟩)] := by
    constructor
    · exact List.Perm.refl _
    · rw [List.chain'_cons]
      exact ⟨rfl, List.chain'_singleton _⟩
  have hmem : ("cat", (⟨4, 2, 0, 2⟩ : WordStats)) ∈
      [(("cat" : String), (⟨4, 2, 0, 2⟩ : WordStats)), ("dog", ⟨4, 1, 1, 1⟩)] :=
    List.mem_cons_self _ _
  exact ⟨⟨hR, hmem⟩, C6_span_invariants.1 _ _ hR _ hmem⟩

/-- Claim C10: in both tokenization modes, the line numbers of the produced
occurrence sequence are non-decreasing in sequence order and strictly below
`numberOfLines` of the text. -/
theorem C10_line_numbers (code : List Char) :
    (List.Chain' (· ≤ ·) ((getWordDataEntireWords code).map WordData.lineNumber) ∧
      ∀ wd ∈ getWordDataEntireWords code, wd.lineNumber < numberOfLines code) ∧
      List.Chain' (· ≤ ·) ((getWordDataWordsInCamelCase code).map WordData.lineNumber) ∧
      ∀ wd ∈ getWordDataWordsInCamelCase code, wd.lineNumber < numberOfLines code := by
  have hEOW : ∀ c, isDelimiter c = true → isEndOfWordCamel c = true := by
    intro c hc
    unfold isEndOfWordCamel
    rw [hc]
    rfl
  refine ⟨⟨?_, ?_⟩, ?_, ?_⟩
  · exact (tokenLoop_chain isDelimiter code code.length 0
      (findFromNot isDelimiter code 0) 0).tail
  · exact getWordData_line_lt isDelimiter code (fun c hc => hc)
  · exact (tokenLoop_chain isEndOfWordCamel code code.length 0
      (findFromNot isDelimiter code 0) 0).tail
  · exact getWordData_line_lt isEndOfWordCamel code hEOW

/-- Claim C10 witness: on `"a\nb"` the occurrence of `"b"` at line 1 is in
the tokenizer output and its line number is below the 2-line total. -/
theorem C10_line_numbers_witness :
    (⟨"b", 1⟩ : WordData) ∈ getWordDataEntireWords "a\nb".toList ∧
      (⟨"b", 1⟩ : WordData).lineNumber < numberOfLines "a\nb".toList := by
  have h0 : getWordDataEntireWords "a\nb".toList = [⟨"a", 0⟩, ⟨"b", 1⟩] := rfl
  have hmem : (⟨"b", 1⟩ : WordData) ∈ getWordDataEntireWords "a\nb".toList := by
    rw [h0]
    exact List.mem_cons_of_mem _ (List.mem_cons_self _ _)
  exact ⟨hmem, (C10_line_numbers "a\nb".toList).1.2 _ hmem⟩

end WordCount
